import Mathlib

/-!
Shallow embedding of `src/logs/lib.rs` (crate `tracelogs`): a log-merging
tool. Strings are modelled as `List Char` (Rust `String` comparison is
byte-lexicographic, which on valid UTF-8 coincides with code-point
lexicographic order). Rust `i64` values are modelled as `Int`; all
arithmetic in the source stays far from the `i64` boundaries at the
inputs considered. Fallible operations (`unwrap` on parse results) are
modelled with `Option`, `none` standing for the panic.
-/

/-- Strings as lists of characters. -/
abbrev Str := List Char

/-- Comparison of two characters, as Rust compares `char`/bytes
(code-point order). -/
def charCmp (a b : Char) : Ordering := compare a.toNat b.toNat

/-- Lexicographic comparison of strings, as Rust's derived `Ord` for
`String` (byte-lexicographic). -/
def strCmp : Str → Str → Ordering
  | [], [] => .eq
  | [], _ :: _ => .lt
  | _ :: _, [] => .gt
  | a :: as, b :: bs => (charCmp a b).then (strCmp as bs)

/-- Comparison of two integers, as Rust's `Ord` for `i64`. -/
def intCmp (a b : Int) : Ordering :=
  if a < b then .lt else if b < a then .gt else .eq

/-- `LogLine` from `lib.rs`: `{timestamp: i64, hostname, service, message}`. -/
structure LogLine where
  timestamp : Int
  hostname : Str
  service : Str
  message : Str
deriving DecidableEq

/-- The derived `Ord` of `LogLine` (`#[derive(..., Ord, ...)]`):
lexicographic over the fields in declaration order
`timestamp`, `hostname`, `service`, `message`. -/
def LogLine.cmp (a b : LogLine) : Ordering :=
  (intCmp a.timestamp b.timestamp).then
    ((strCmp a.hostname b.hostname).then
      ((strCmp a.service b.service).then (strCmp a.message b.message)))

/-- `a <= b` in the derived total order (Boolean form used for sorting). -/
def LogLine.leb (a b : LogLine) : Bool := !(LogLine.cmp a b == .gt)

/-- `a <= b` in the derived total order, as a proposition. -/
def LogLine.Le (a b : LogLine) : Prop := LogLine.cmp a b ≠ .gt

instance : DecidablePred fun p : LogLine × LogLine => LogLine.Le p.1 p.2 :=
  fun p => by unfold LogLine.Le; infer_instance

instance LogLine.decLe (a b : LogLine) : Decidable (LogLine.Le a b) := by
  unfold LogLine.Le; infer_instance

/-- `Vec::sort` of the Rust standard library: a stable sort by the derived
total order. -/
def sortLines (l : List LogLine) : List LogLine := l.mergeSort LogLine.leb

/-- `Logs` from `lib.rs`: backing vector of records plus the consumption
cursor `line_idx`. -/
structure Logs where
  lines : List LogLine
  line_idx : Nat
deriving DecidableEq

/-- `Logs::new`: wraps a given sequence as-is, cursor at 0. -/
def Logs.new (lines : List LogLine) : Logs := ⟨lines, 0⟩

/-- `Logs::merge(&mut self, other)`. The body reads `self.lines` and
`other.lines`, concatenates, sorts, and returns a fresh `Logs`; it never
writes through `&mut self`, so the receiver's post-state equals its
pre-state. The pair returned is (post-state of the receiver, result). -/
def Logs.merge (self other : Logs) : Logs × Logs :=
  let lines := sortLines (self.lines ++ other.lines)
  (self, Logs.new lines)

/-- `Tracer::includes`: every word is a substring of the message. -/
def LogLine.includes (x : LogLine) (words : List Str) : Bool :=
  words.all fun word => decide (word <:+: x.message)

/-- `Tracer::excludes`: some word is a substring of the message. -/
def LogLine.excludes (x : LogLine) (words : List Str) : Bool :=
  words.any fun word => decide (word <:+: x.message)

/-- `Logs::filter_logs(&self, exclude, include)`: keep the records whose
message contains every `include` word, then drop those containing some
`exclude` word; the result is a fresh `Logs` with cursor 0. -/
def Logs.filter_logs (self : Logs) (exclude inc : List Str) : Logs :=
  ⟨((self.lines.filter fun x => x.includes inc).filter
      fun x => !(x.excludes exclude)), 0⟩

/-- State-passing form of `filter_logs`: the receiver is taken by `&self`
(shared borrow), so its post-state equals its pre-state. -/
def Logs.filterSt (self : Logs) (exclude inc : List Str) : Logs × Logs :=
  (self, self.filter_logs exclude inc)

-- ### Order lemmas for the derived comparator

theorem charCmp_eq_iff (a b : Char) : charCmp a b = .eq ↔ a = b := by
  unfold charCmp
  rw [Nat.compare_eq_eq]
  constructor
  · intro h; exact Char.ext (UInt32.ext h)
  · intro h; rw [h]

theorem charCmp_swap (a b : Char) : charCmp b a = (charCmp a b).swap := by
  unfold charCmp
  rcases Nat.lt_trichotomy a.toNat b.toNat with h | h | h
  · rw [Nat.compare_eq_lt.mpr h, Nat.compare_eq_gt.mpr h]; rfl
  · rw [h, Nat.compare_eq_eq.mpr rfl]; rfl
  · rw [Nat.compare_eq_gt.mpr h, Nat.compare_eq_lt.mpr h]; rfl

theorem charCmp_lt_trans {a b c : Char} (h1 : charCmp a b = .lt)
    (h2 : charCmp b c = .lt) : charCmp a c = .lt := by
  unfold charCmp at *
  rw [Nat.compare_eq_lt] at *
  omega

theorem strCmp_eq_iff (a b : Str) : strCmp a b = .eq ↔ a = b := by
  induction a generalizing b with
  | nil => cases b <;> simp [strCmp]
  | cons x xs ih =>
    cases b with
    | nil => simp [strCmp]
    | cons y ys =>
      simp only [strCmp, List.cons.injEq]
      cases hc : charCmp x y with
      | lt =>
        constructor
        · intro h; simp [Ordering.then] at h
        · rintro ⟨h, -⟩
          rw [h, (charCmp_eq_iff y y).mpr rfl] at hc
          exact Ordering.noConfusion hc
      | gt =>
        constructor
        · intro h; simp [Ordering.then] at h
        · rintro ⟨h, -⟩
          rw [h, (charCmp_eq_iff y y).mpr rfl] at hc
          exact Ordering.noConfusion hc
      | eq => simp [Ordering.then, (charCmp_eq_iff x y).mp hc, ih]

theorem strCmp_swap (a b : Str) : strCmp b a = (strCmp a b).swap := by
  induction a generalizing b with
  | nil => cases b <;> rfl
  | cons x xs ih =>
    cases b with
    | nil => rfl
    | cons y ys =>
      simp only [strCmp, charCmp_swap x y]
      cases charCmp x y <;> simp [Ordering.then, Ordering.swap, ih]

theorem strCmp_lt_trans {a b c : Str} (h1 : strCmp a b = .lt)
    (h2 : strCmp b c = .lt) : strCmp a c = .lt := by
  induction a generalizing b c with
  | nil =>
    cases b with
    | nil => simp [strCmp] at h1
    | cons y ys => cases c with
      | nil => simp [strCmp] at h2
      | cons z zs => simp [strCmp]
  | cons x xs ih =>
    cases b with
    | nil => simp [strCmp] at h1
    | cons y ys =>
      cases c with
      | nil => simp [strCmp] at h2
      | cons z zs =>
        simp only [strCmp] at h1 h2 ⊢
        cases hxy : charCmp x y with
        | gt => rw [hxy] at h1; simp [Ordering.then] at h1
        | lt =>
          cases hyz : charCmp y z with
          | gt => rw [hyz] at h2; simp [Ordering.then] at h2
          | lt => rw [charCmp_lt_trans hxy hyz]; rfl
          | eq =>
            obtain rfl := (charCmp_eq_iff y z).mp hyz
            rw [hxy]; rfl
        | eq =>
          obtain rfl := (charCmp_eq_iff x y).mp hxy
          rw [hxy] at h1
          simp only [Ordering.then] at h1
          cases hyz : charCmp x z with
          | gt => simp [hyz, Ordering.then] at h2
          | lt => rfl
          | eq =>
            simp only [hyz, Ordering.then] at h2 ⊢
            exact ih h1 h2

theorem intCmp_eq_iff (a b : Int) : intCmp a b = .eq ↔ a = b := by
  unfold intCmp
  by_cases h1 : a < b
  · rw [if_pos h1]
    constructor
    · intro h; exact Ordering.noConfusion h
    · intro h; omega
  · rw [if_neg h1]
    by_cases h2 : b < a
    · rw [if_pos h2]
      constructor
      · intro h; exact Ordering.noConfusion h
      · intro h; omega
    · rw [if_neg h2]
      constructor
      · intro _; omega
      · intro _; rfl

theorem intCmp_swap (a b : Int) : intCmp b a = (intCmp a b).swap := by
  unfold intCmp
  by_cases h1 : a < b
  · rw [if_neg (by omega : ¬ b < a), if_pos h1, if_pos h1]; rfl
  · by_cases h2 : b < a
    · rw [if_pos h2, if_neg h1, if_pos h2]; rfl
    · rw [if_neg h2, if_neg h1, if_neg h1, if_neg h2]; rfl

theorem intCmp_lt_trans {a b c : Int} (h1 : intCmp a b = .lt)
    (h2 : intCmp b c = .lt) : intCmp a c = .lt := by
  unfold intCmp at h1 h2 ⊢
  have hab : a < b := by
    by_contra h
    rw [if_neg h] at h1
    split at h1 <;> simp at h1
  have hbc : b < c := by
    by_contra h
    rw [if_neg h] at h2
    split at h2 <;> simp at h2
  rw [if_pos (by omega)]

/-- Transitivity of a lexicographic `Ordering.then` step: the leading
comparator is keyed by a projection `f` and lawful, the tail comparator
is transitive. -/
theorem lexThen_lt_trans {α β : Type} {c : β → β → Ordering} {f : α → β}
    {r : α → α → Ordering}
    (ceq : ∀ x y, c x y = .eq → x = y)
    (ctr : ∀ {x y z}, c x y = .lt → c y z = .lt → c x z = .lt)
    (rtr : ∀ {x y z}, r x y = .lt → r y z = .lt → r x z = .lt)
    {a b d : α}
    (h1 : (c (f a) (f b)).then (r a b) = .lt)
    (h2 : (c (f b) (f d)).then (r b d) = .lt) :
    (c (f a) (f d)).then (r a d) = .lt := by
  rcases Ordering.then_eq_lt.mp h1 with hc1 | ⟨hc1, hr1⟩ <;>
    rcases Ordering.then_eq_lt.mp h2 with hc2 | ⟨hc2, hr2⟩
  · exact Ordering.then_eq_lt.mpr (Or.inl (ctr hc1 hc2))
  · rw [ceq _ _ hc2] at hc1
    exact Ordering.then_eq_lt.mpr (Or.inl hc1)
  · rw [← ceq _ _ hc1] at hc2
    exact Ordering.then_eq_lt.mpr (Or.inl hc2)
  · rw [ceq _ _ hc1] at *
    exact Ordering.then_eq_lt.mpr (Or.inr ⟨hc2, rtr hr1 hr2⟩)

theorem then_swap (o p : Ordering) : (o.then p).swap = o.swap.then p.swap := by
  cases o <;> rfl

theorem LogLine.cmp_swap (a b : LogLine) :
    LogLine.cmp b a = (LogLine.cmp a b).swap := by
  unfold LogLine.cmp
  rw [then_swap, then_swap, then_swap, intCmp_swap, strCmp_swap,
    strCmp_swap a.service, strCmp_swap a.message]

theorem LogLine.cmp_eq_iff (a b : LogLine) :
    LogLine.cmp a b = .eq ↔ a = b := by
  unfold LogLine.cmp
  rw [Ordering.then_eq_eq, Ordering.then_eq_eq, Ordering.then_eq_eq,
    intCmp_eq_iff, strCmp_eq_iff, strCmp_eq_iff, strCmp_eq_iff]
  constructor
  · rintro ⟨h1, h2, h3, h4⟩
    cases a; cases b
    simp_all
  · intro h; rw [h]; simp

theorem LogLine.cmp_lt_trans {a b c : LogLine} (h1 : LogLine.cmp a b = .lt)
    (h2 : LogLine.cmp b c = .lt) : LogLine.cmp a c = .lt := by
  unfold LogLine.cmp at *
  refine lexThen_lt_trans (c := intCmp) (f := LogLine.timestamp)
    (r := fun x y => (strCmp x.hostname y.hostname).then
      ((strCmp x.service y.service).then (strCmp x.message y.message)))
    (fun x y h => (intCmp_eq_iff x y).mp h)
    (fun hx hy => intCmp_lt_trans hx hy) ?_ h1 h2
  intro x y z hx hy
  refine lexThen_lt_trans (c := strCmp) (f := LogLine.hostname)
    (r := fun u v => (strCmp u.service v.service).then
      (strCmp u.message v.message))
    (fun u v h => (strCmp_eq_iff u v).mp h)
    (fun hu hv => strCmp_lt_trans hu hv) ?_ hx hy
  intro u v w hu hv
  exact lexThen_lt_trans (c := strCmp) (f := LogLine.service)
    (r := fun p q => strCmp p.message q.message)
    (fun p q h => (strCmp_eq_iff p q).mp h)
    (fun hp hq => strCmp_lt_trans hp hq)
    (fun hp hq => strCmp_lt_trans hp hq) hu hv

theorem LogLine.cmp_refl (a : LogLine) : LogLine.cmp a a = .eq :=
  (LogLine.cmp_eq_iff a a).mpr rfl

/-- `Le` holds exactly when the comparator does not answer `gt`. -/
theorem LogLine.leb_iff_Le (a b : LogLine) :
    LogLine.leb a b = true ↔ LogLine.Le a b := by
  unfold LogLine.leb LogLine.Le
  cases LogLine.cmp a b <;> decide

theorem LogLine.le_total (a b : LogLine) :
    (LogLine.leb a b || LogLine.leb b a) = true := by
  unfold LogLine.leb
  rw [LogLine.cmp_swap b a]
  cases LogLine.cmp b a <;> decide

theorem LogLine.leb_trans (a b c : LogLine) (h1 : LogLine.leb a b = true)
    (h2 : LogLine.leb b c = true) : LogLine.leb a c = true := by
  unfold LogLine.leb at *
  cases hab : LogLine.cmp a b with
  | gt => rw [hab] at h1; exact absurd h1 (by decide)
  | eq =>
    obtain rfl := (LogLine.cmp_eq_iff a b).mp hab
    exact h2
  | lt =>
    cases hbc : LogLine.cmp b c with
    | gt => rw [hbc] at h2; exact absurd h2 (by decide)
    | eq =>
      obtain rfl := (LogLine.cmp_eq_iff b c).mp hbc
      rw [hab]; rfl
    | lt => rw [LogLine.cmp_lt_trans hab hbc]; rfl

theorem LogLine.le_antisymm {a b : LogLine} (h1 : LogLine.Le a b)
    (h2 : LogLine.Le b a) : a = b := by
  unfold LogLine.Le at *
  rw [LogLine.cmp_swap a b] at h2
  cases hab : LogLine.cmp a b with
  | eq => exact (LogLine.cmp_eq_iff a b).mp hab
  | gt => exact absurd hab h1
  | lt => rw [hab] at h2; exact absurd rfl h2

instance : IsAntisymm LogLine LogLine.Le := ⟨fun _ _ => LogLine.le_antisymm⟩

theorem LogLine.Le_trans {a b c : LogLine} (h1 : LogLine.Le a b)
    (h2 : LogLine.Le b c) : LogLine.Le a c := by
  rw [← LogLine.leb_iff_Le] at *
  exact LogLine.leb_trans a b c h1 h2

theorem LogLine.Le_total (a b : LogLine) : LogLine.Le a b ∨ LogLine.Le b a := by
  rcases Bool.or_eq_true_iff.mp (LogLine.le_total a b) with h | h
  · exact Or.inl ((LogLine.leb_iff_Le a b).mp h)
  · exact Or.inr ((LogLine.leb_iff_Le b a).mp h)

theorem sortLines_perm (l : List LogLine) : (sortLines l).Perm l :=
  List.mergeSort_perm l LogLine.leb

theorem sortLines_sorted (l : List LogLine) :
    List.Sorted LogLine.Le (sortLines l) := by
  have h := @List.sorted_mergeSort LogLine LogLine.leb
    (fun a b c => LogLine.leb_trans a b c) LogLine.le_total l
  unfold List.Sorted
  exact h.imp fun {a b} hab => (LogLine.leb_iff_Le a b).mp hab

theorem sortLines_of_sorted {l : List LogLine}
    (h : List.Sorted LogLine.Le l) : sortLines l = l := by
  apply List.mergeSort_of_sorted
  exact h.imp fun {a b} hab => (LogLine.leb_iff_Le a b).mpr hab

theorem sortLines_idem (l : List LogLine) :
    sortLines (sortLines l) = sortLines l :=
  sortLines_of_sorted (sortLines_sorted l)

theorem sortLines_eq_of_perm {l1 l2 : List LogLine} (h : l1.Perm l2) :
    sortLines l1 = sortLines l2 :=
  List.eq_of_perm_of_sorted
    (((sortLines_perm l1).trans h).trans (sortLines_perm l2).symm)
    (sortLines_sorted l1) (sortLines_sorted l2)

-- ### `split_keep` (the entry splitter)

/-- The loop of `split_keep(r, text)` from `lib.rs`, with the iterator
`text.match_indices(r)` abstracted as the explicit list `ms` of
`(index, matched)` pairs it yields. `last` is the mutable cursor of the
loop; after the loop the remainder `text[last..]` is pushed only when
`last < text.len()`. -/
def splitKeepGo (text : Str) : Nat → List (Nat × Str) → List Str
  | last, [] => if last < text.length then [text.drop last] else []
  | last, (index, matched) :: ms =>
    (if last ≠ index then [(text.drop last).take (index - last)] else [])
      ++ (matched :: splitKeepGo text (index + matched.length) ms)

/-- `split_keep(r, text)`: the loop starts with `last = 0`. -/
def split_keep (text : Str) (ms : List (Nat × Str)) : List Str :=
  splitKeepGo text 0 ms

/-- Contract of `str::match_indices` starting at position `last`:
successive non-overlapping matches at increasing positions, each
`matched` being the actual substring of `text` at its `index`. -/
def MatchesFrom (text : Str) : Nat → List (Nat × Str) → Bool
  | _, [] => true
  | last, (index, matched) :: ms =>
    decide (last ≤ index) && decide (index + matched.length ≤ text.length)
      && ((text.drop index).take matched.length == matched)
      && MatchesFrom text (index + matched.length) ms

theorem splitKeepGo_flatten (text : Str) (ms : List (Nat × Str)) :
    ∀ last, MatchesFrom text last ms = true → last ≤ text.length →
      (splitKeepGo text last ms).flatten = text.drop last := by
  induction ms with
  | nil =>
    intro last _ hle
    by_cases hlt : last < text.length
    · simp [splitKeepGo, hlt]
    · have hnil : text.drop last = [] := List.drop_eq_nil_of_le (by omega)
      simp [splitKeepGo, hlt, hnil]
  | cons p ms ih =>
    obtain ⟨index, matched⟩ := p
    intro last h hle
    simp only [MatchesFrom, Bool.and_eq_true, decide_eq_true_eq,
      beq_iff_eq] at h
    obtain ⟨⟨⟨h1, h2⟩, h3⟩, h4⟩ := h
    simp only [splitKeepGo, List.flatten_append, List.flatten_cons]
    rw [ih _ h4 (by omega)]
    by_cases hli : last = index
    · rw [if_neg (by simp [hli])]
      subst hli
      simp only [List.flatten_nil, List.nil_append]
      conv_rhs => rw [← List.take_append_drop matched.length (text.drop last)]
      rw [h3, List.drop_drop]
    · rw [if_pos (by exact hli)]
      simp only [List.flatten_cons, List.flatten_nil, List.append_nil]
      have hx : (text.drop last).drop (index - last) = text.drop index := by
        rw [List.drop_drop]
        congr 1
        omega
      calc (text.drop last).take (index - last)
            ++ (matched ++ text.drop (index + matched.length))
          = (text.drop last).take (index - last)
            ++ ((text.drop index).take matched.length
              ++ text.drop (index + matched.length)) := by rw [h3]
        _ = (text.drop last).take (index - last)
            ++ ((text.drop index).take matched.length
              ++ (text.drop index).drop matched.length) := by
                rw [List.drop_drop]
        _ = (text.drop last).take (index - last)
            ++ text.drop index := by rw [List.take_append_drop]
        _ = (text.drop last).take (index - last)
            ++ (text.drop last).drop (index - last) := by rw [hx]
        _ = text.drop last := List.take_append_drop _ _

-- ### Timestamp parsing (`RegExtractor::timestamp_micros`, chrono model)

/-- A calendar date-time as produced by chrono's `NaiveDateTime` parse. -/
structure NaiveDT where
  year : Nat
  month : Nat
  day : Nat
  hour : Nat
  minute : Nat
  second : Nat
  nano : Nat
deriving DecidableEq

/-- Fields accumulated while scanning a strftime format. -/
structure DTParts where
  py : Option Nat
  pmo : Option Nat
  pd : Option Nat
  ph : Option Nat
  pmi : Option Nat
  ps : Option Nat
deriving DecidableEq

/-- Scan at most `w` leading ASCII digits (at least one) and return the
value and the remaining input, as chrono's numeric field scanner does
for a fixed-width field. -/
def readNum (w : Nat) (s : Str) : Option (Nat × Str) :=
  let ds := (s.take w).takeWhile fun c => c.isDigit
  if ds.isEmpty then none
  else some (ds.foldl (fun acc c => 10 * acc + (c.toNat - 48)) 0,
    s.drop ds.length)

/-- Scanning loop of chrono's `parse_from_str`, restricted to the
directives `%Y %m %d %H %M %S` (the shapes this tool's stored format
strings use) and literal characters matched exactly; any other directive
is out of the modelled subset. Years are therefore in `0..=9999`. -/
def parseFmtGo : Str → Str → DTParts → Option (DTParts × Str)
  | [], s, acc => some (acc, s)
  | '%' :: c :: f, s, acc =>
    if c = 'Y' then (readNum 4 s).bind fun v =>
      parseFmtGo f v.2 ⟨some v.1, acc.pmo, acc.pd, acc.ph, acc.pmi, acc.ps⟩
    else if c = 'm' then (readNum 2 s).bind fun v =>
      parseFmtGo f v.2 ⟨acc.py, some v.1, acc.pd, acc.ph, acc.pmi, acc.ps⟩
    else if c = 'd' then (readNum 2 s).bind fun v =>
      parseFmtGo f v.2 ⟨acc.py, acc.pmo, some v.1, acc.ph, acc.pmi, acc.ps⟩
    else if c = 'H' then (readNum 2 s).bind fun v =>
      parseFmtGo f v.2 ⟨acc.py, acc.pmo, acc.pd, some v.1, acc.pmi, acc.ps⟩
    else if c = 'M' then (readNum 2 s).bind fun v =>
      parseFmtGo f v.2 ⟨acc.py, acc.pmo, acc.pd, acc.ph, some v.1, acc.ps⟩
    else if c = 'S' then (readNum 2 s).bind fun v =>
      parseFmtGo f v.2 ⟨acc.py, acc.pmo, acc.pd, acc.ph, acc.pmi, some v.1⟩
    else none
  | '%' :: [], _, _ => none
  | c :: f, s, acc =>
    match s with
    | c2 :: s2 => if c2 = c then parseFmtGo f s2 acc else none
    | [] => none

/-- Gregorian leap year. -/
def isLeapYear (y : Nat) : Bool :=
  (y % 4 == 0 && y % 100 != 0) || y % 400 == 0

/-- Length of month `m` of year `y`. -/
def daysInMonth (y m : Nat) : Nat :=
  if m = 2 then (if isLeapYear y then 29 else 28)
  else if m = 4 ∨ m = 6 ∨ m = 9 ∨ m = 11 then 30
  else 31

/-- Validation performed by chrono when assembling a `NaiveDateTime` from
parsed fields: all six fields present and in range. (Leap-second input,
`second == 60`, is outside the modelled subset.) -/
def buildDT (p : DTParts) : Option NaiveDT :=
  match p.py, p.pmo, p.pd, p.ph, p.pmi, p.ps with
  | some y, some mo, some d, some h, some mi, some s =>
    if 1 ≤ mo ∧ mo ≤ 12 ∧ 1 ≤ d ∧ d ≤ daysInMonth y mo
        ∧ h < 24 ∧ mi < 60 ∧ s < 60
    then some ⟨y, mo, d, h, mi, s, 0⟩ else none
  | _, _, _, _, _, _ => none

/-- `NaiveDateTime::parse_from_str(text, fmtp)`: scan `text` against the
format; unconsumed trailing input is an error, as is any failed field. -/
def parse_from_str (text fmtp : Str) : Option NaiveDT :=
  (parseFmtGo fmtp text ⟨none, none, none, none, none, none⟩).bind fun r =>
    if r.2 = [] then buildDT r.1 else none

/-- Days from 0001-01-01 (day 0) to January 1st of year `y` (sound for
`y ≥ 1`; parsed years below 1 do not occur in the claims considered). -/
def daysBeforeYear (y : Nat) : Nat :=
  365 * (y - 1) + (y - 1) / 4 - (y - 1) / 100 + (y - 1) / 400

/-- Days in year `y` strictly before the first day of month `m`. -/
def daysBeforeMonth (y m : Nat) : Nat :=
  (List.range (m - 1)).foldl (fun acc i => acc + daysInMonth y (i + 1)) 0

/-- Day number of a civil date, with 0001-01-01 as day 0. -/
def toDayNumber (y m d : Nat) : Nat :=
  daysBeforeYear y + daysBeforeMonth y m + (d - 1)

/-- `NaiveDateTime::timestamp()`: whole seconds since the Unix epoch. -/
def NaiveDT.timestamp (dt : NaiveDT) : Int :=
  ((toDayNumber dt.year dt.month dt.day : Int)
      - (toDayNumber 1970 1 1 : Int)) * 86400
    + 3600 * (dt.hour : Int) + 60 * (dt.minute : Int) + (dt.second : Int)

/-- `NaiveDateTime::timestamp_subsec_micros()`. -/
def NaiveDT.subsec_micros (dt : NaiveDT) : Nat := dt.nano / 1000

/-- `RegExtractor::timestamp_micros(&self, strftime)`:
`NaiveDateTime::parse_from_str(strftime, &self.strftime_pattern).unwrap()`
followed by `timestamp() * 1_000_000 + timestamp_subsec_micros() as i64`.
The `.unwrap()` panics when the parse fails; the panic is modelled by
`none`. -/
def timestamp_micros (strftime_pattern strftime : Str) : Option Int :=
  (parse_from_str strftime strftime_pattern).map fun dt =>
    dt.timestamp * 1000000 + (dt.subsec_micros : Int)

-- ### Regex subset (the `regex` crate, as used by `RegExtractor`)

/-- Quantifier on a regex atom. -/
inductive RQuant where
  | one
  | star
  | plus
  | exactly (n : Nat)

mutual
/-- Atom of the regex subset the tool's patterns use: literal character,
`\d`, `\w` (ASCII subset), `.`, and a capturing group numbered by its
opening parenthesis. -/
inductive RAtom where
  | lit (c : Char)
  | digit
  | word
  | dot
  | group (gi : Nat) (items : RSeq)

/-- A regex: a sequence of quantified atoms. -/
inductive RSeq where
  | nil
  | cons (a : RAtom) (q : RQuant) (rest : RSeq)
end

/-- Prepend `n` unquantified copies of an atom (expansion of `{n}`). -/
def consNAtom (n : Nat) (a : RAtom) (rest : RSeq) : RSeq :=
  match n with
  | 0 => rest
  | n + 1 => .cons a .one (consNAtom n a rest)

/-- Capture slots: index 0 is the whole match, further indices the
groups, `none` when unset — as the `Captures` of the `regex` crate. -/
abbrev Caps := List (Option Str)

def setCap (caps : Caps) (i : Nat) (v : Str) : Caps := caps.set i (some v)

/-- Single-character test of a non-group atom. -/
def headAtomMatch (a : RAtom) (c : Char) : Bool :=
  match a with
  | .lit c2 => c == c2
  | .digit => c.isDigit
  | .word => c.isDigit || c.isAlpha || c == '_'
  | .dot => c != '\n'
  | .group _ _ => false

/-- Backtracking matcher with leftmost-first (greedy, prefer-longer)
semantics, as the `regex` crate documents for captures. `k` is the
continuation receiving the remaining input and capture slots; `fuel`
bounds recursion depth and is ample for the concrete runs below. -/
def mSeq : Nat → RSeq → Str → Caps → (Str → Caps → Option (Str × Caps)) →
    Option (Str × Caps)
  | 0, _, _, _, _ => none
  | _ + 1, .nil, s, caps, k => k s caps
  | fuel + 1, .cons a q rest, s, caps, k =>
    match a, q with
    | .group gi items, .one =>
      mSeq fuel items s caps fun s2 caps2 =>
        mSeq fuel rest s2 (setCap caps2 gi (s.take (s.length - s2.length))) k
    | .group gi items, .star =>
      match mSeq fuel items s caps (fun s2 caps2 =>
          if s2.length < s.length then
            mSeq fuel (.cons a .star rest) s2
              (setCap caps2 gi (s.take (s.length - s2.length))) k
          else none) with
      | some r => some r
      | none => mSeq fuel rest s caps k
    | .group _ _, .plus =>
      mSeq fuel (.cons a .one (.cons a .star rest)) s caps k
    | .group _ _, .exactly n => mSeq fuel (consNAtom n a rest) s caps k
    | _, .one =>
      match s with
      | [] => none
      | c :: s2 => if headAtomMatch a c then mSeq fuel rest s2 caps k else none
    | _, .star =>
      match s with
      | c :: s2 =>
        if headAtomMatch a c then
          match mSeq fuel (.cons a .star rest) s2 caps k with
          | some r => some r
          | none => mSeq fuel rest s caps k
        else mSeq fuel rest s caps k
      | [] => mSeq fuel rest s caps k
    | _, .plus => mSeq fuel (.cons a .one (.cons a .star rest)) s caps k
    | _, .exactly n => mSeq fuel (consNAtom n a rest) s caps k

/-- Run the matcher at one start offset; on success capture slot 0 is
set to the whole matched span, as in `Regex::captures`. -/
def tryCapturesAt (fuel : Nat) (r : RSeq) (ng : Nat) (text : Str)
    (start : Nat) : Option Caps :=
  let s := text.drop start
  match mSeq fuel r s (List.replicate (ng + 1) none)
      (fun s2 caps => some (s2, caps)) with
  | some (s2, caps) => some (setCap caps 0 (s.take (s.length - s2.length)))
  | none => none

/-- `Regex::captures(text)`: captures of the leftmost match. -/
def rcaptures (fuel : Nat) (r : RSeq) (ng : Nat) (text : Str) : Option Caps :=
  (List.range (text.length + 1)).findSome? fun i =>
    tryCapturesAt fuel r ng text i

/-- Read an optional postfix quantifier (`{n}`, `+`, `*`). -/
def scanQuant (s : Str) : RQuant × Str :=
  match s with
  | '+' :: r => (.plus, r)
  | '*' :: r => (.star, r)
  | '{' :: r =>
    let ds := r.takeWhile fun c => c.isDigit
    match r.drop ds.length with
    | '}' :: r2 =>
      if ds.isEmpty then (.one, s)
      else (.exactly (ds.foldl (fun acc c => 10 * acc + (c.toNat - 48)) 0), r2)
    | _ => (.one, s)
  | _ => (.one, s)

/-- Recursive-descent scan of the regex subset used by the tool's
patterns: `\d`, `\w`, `.`, literal characters, groups `(...)` and the
quantifiers above. Returns the parsed sequence, the group counter, and
the unconsumed input (empty or starting with the `)` of the caller). -/
def scanSeq : Nat → Nat → Str → Option (RSeq × Nat × Str)
  | 0, _, _ => none
  | _ + 1, gi, [] => some (.nil, gi, [])
  | _ + 1, gi, ')' :: r => some (.nil, gi, ')' :: r)
  | fuel + 1, gi, c :: r =>
    let step : Option (RAtom × Nat × Str) :=
      if c = '(' then
        (scanSeq fuel (gi + 1) r).bind fun t =>
          match t.2.2 with
          | ')' :: r2 => some (.group (gi + 1) t.1, t.2.1, r2)
          | _ => none
      else if c = '\\' then
        match r with
        | 'd' :: r2 => some (.digit, gi, r2)
        | 'w' :: r2 => some (.word, gi, r2)
        | c2 :: r2 => some (.lit c2, gi, r2)
        | [] => none
      else if c = '.' then some (.dot, gi, r)
      else some (.lit c, gi, r)
    step.bind fun t =>
      let q := scanQuant t.2.2
      (scanSeq fuel t.2.1 q.2).bind fun u =>
        some (.cons t.1 q.1 u.1, u.2.1, u.2.2)

/-- `Regex::new(pattern)`: compile the pattern source into a matcher and
a group count; `none` models a compile error (which `RegExtractor::new`
unwraps). -/
def regexNew (pattern : Str) : Option (RSeq × Nat) :=
  (scanSeq 10000 0 pattern).bind fun t =>
    if t.2.2 = [] then some (t.1, t.2.1) else none

-- ### `strfmt` and `RegExtractor`

/-- Lookup in the substitution map (`HashMap<String, &String>`). -/
def lookupVar (vars : List (Str × Str)) (key : Str) : Option Str :=
  match vars with
  | [] => none
  | (k, v) :: rest => if k == key then some v else lookupVar rest key

/-- The `strfmt` crate's template substitution, restricted to plain
`\x7bname\x7d` placeholders (the only shape the tool's template uses);
an unknown key is an error. -/
def strfmtGo : Nat → Str → List (Str × Str) → Option Str
  | 0, _, _ => none
  | fuel + 1, '{' :: rest, vars =>
    let key := rest.takeWhile fun c => c != '}'
    match rest.drop key.length with
    | '}' :: rest2 =>
      (lookupVar vars key).bind fun v =>
        (strfmtGo fuel rest2 vars).map fun t => v ++ t
    | _ => none
  | fuel + 1, c :: rest, vars =>
    (strfmtGo fuel rest vars).map fun t => c :: t
  | _ + 1, [], _ => some []

/-- `LogScheme` from `lib.rs`. -/
structure LogScheme where
  date_time : Str
  host : Str
  service : Str
  message : Str
  whole_line : Str
  split_pattern : Str

/-- `RegExtractor` from `lib.rs`: the compiled matcher plus the stored
pattern sources. -/
structure RegExtractor where
  datetime : Str
  host : Str
  service : Str
  message : Str
  line_pattern : Str
  regex : RSeq
  ngroups : Nat
  split_pattern : Str
  strftime_pattern : Str

/-- `RegExtractor::new(scheme, strftime_pattern)`: substitute the four
sub-patterns for `d`, `h`, `s`, `m` in the whole-line template with
`strfmt`, compile the result with `Regex::new`; the two `unwrap`s are
modelled by `Option`. -/
def RegExtractor.new (scheme : LogScheme) (strftime_pattern : Str) :
    Option RegExtractor :=
  let vars := [("d".data, scheme.date_time), ("h".data, scheme.host),
               ("s".data, scheme.service), ("m".data, scheme.message)]
  (strfmtGo 10000 scheme.whole_line vars).bind fun pat =>
    (regexNew pat).map fun rg =>
      ⟨scheme.date_time, scheme.host, scheme.service, scheme.message,
        pat, rg.1, rg.2, scheme.split_pattern, strftime_pattern⟩

/-- `RegExtractor::get_fields(&self, logline)`:
`self.regex.captures(logline)`. -/
def RegExtractor.get_fields (ext : RegExtractor) (logline : Str) :
    Option Caps :=
  rcaptures 2000 ext.regex ext.ngroups logline

-- ### Presentation (`Tracer::header` / `Tracer::print_line`)

/-- C1: `merge(A, B)` returns a stream whose record set is the union
(concatenation, as a multiset) of A's and B's records, fully re-sorted
ascending by the LogRecord total order — a full sort over the
concatenation — and merging is content-commutative: `merge(A,B)` and
`merge(B,A)` contain identical record sequences. -/
theorem merge_spec (a b : Logs) :
    ((a.merge b).2.lines = sortLines (a.lines ++ b.lines))
    ∧ ((a.merge b).2.lines).Perm (a.lines ++ b.lines)
    ∧ List.Sorted LogLine.Le ((a.merge b).2.lines)
    ∧ (a.merge b).2.lines = (b.merge a).2.lines := by
  refine ⟨rfl, sortLines_perm _, sortLines_sorted _, ?_⟩
  show sortLines (a.lines ++ b.lines) = sortLines (b.lines ++ a.lines)
  exact sortLines_eq_of_perm List.perm_append_comm

/-- Pointwise agreement of the code's filter predicate (via
`includes`/`excludes`) with the specification's predicate. -/
theorem filterPred_eq (r : LogLine) (exclude inc : List Str) :
    (!(r.excludes exclude) && r.includes inc)
      = decide ((∀ w ∈ inc, w <:+: r.message)
          ∧ ∀ w ∈ exclude, ¬ w <:+: r.message) := by
  rw [Bool.eq_iff_iff]
  simp only [LogLine.includes, LogLine.excludes, Bool.and_eq_true,
    Bool.not_eq_true', List.any_eq_false, List.all_eq_true,
    decide_eq_true_eq, decide_eq_false_iff_not]
  exact and_comm

/-- C2: `filter_logs(exclude, include)` keeps exactly the records whose
message contains every `include` term and no `exclude` term; the result
is a sublist of the input (relative order preserved, no re-sorting), and
two empty term lists keep everything. -/
theorem filter_logs_spec (l : Logs) (exclude inc : List Str) :
    ((l.filter_logs exclude inc).lines
        = l.lines.filter fun r =>
            decide ((∀ w ∈ inc, w <:+: r.message)
              ∧ ∀ w ∈ exclude, ¬ w <:+: r.message))
    ∧ ((l.filter_logs exclude inc).lines).Sublist l.lines
    ∧ (l.filter_logs [] []).lines = l.lines := by
  have hmain : (l.filter_logs exclude inc).lines
      = l.lines.filter fun r =>
          decide ((∀ w ∈ inc, w <:+: r.message)
            ∧ ∀ w ∈ exclude, ¬ w <:+: r.message) := by
    show ((l.lines.filter fun x => x.includes inc).filter
        fun x => !(x.excludes exclude)) = _
    rw [List.filter_filter]
    exact List.filter_congr fun r _ => filterPred_eq r exclude inc
  refine ⟨hmain, ?_, ?_⟩
  · rw [hmain]; exact List.filter_sublist l.lines
  · have h2 : (l.filter_logs [] []).lines
        = l.lines.filter fun r =>
            decide ((∀ w ∈ ([] : List Str), w <:+: r.message)
              ∧ ∀ w ∈ ([] : List Str), ¬ w <:+: r.message) := by
      show ((l.lines.filter fun x => x.includes []).filter
          fun x => !(x.excludes [])) = _
      rw [List.filter_filter]
      exact List.filter_congr fun r _ => filterPred_eq r [] []
    rw [h2]
    simp

/-- C3: the `LogLine` ordering is total and antisymmetric with
transitive comparison; its primary key is the timestamp and ties are
broken by hostname, then service, then message; and sorting by it is
idempotent. -/
theorem logline_order_spec :
    (∀ a b : LogLine, LogLine.Le a b ∨ LogLine.Le b a)
    ∧ (∀ a b : LogLine, LogLine.Le a b → LogLine.Le b a → a = b)
    ∧ (∀ a b c : LogLine,
        LogLine.Le a b → LogLine.Le b c → LogLine.Le a c)
    ∧ (∀ a b : LogLine, a.timestamp ≠ b.timestamp →
        LogLine.cmp a b = intCmp a.timestamp b.timestamp)
    ∧ (∀ a b : LogLine, a.timestamp = b.timestamp →
        LogLine.cmp a b = (strCmp a.hostname b.hostname).then
          ((strCmp a.service b.service).then (strCmp a.message b.message)))
    ∧ (∀ l : List LogLine, sortLines (sortLines l) = sortLines l) := by
  refine ⟨LogLine.Le_total, fun a b => LogLine.le_antisymm,
    fun a b c => LogLine.Le_trans, ?_, ?_, sortLines_idem⟩
  · intro a b hne
    unfold LogLine.cmp
    cases h : intCmp a.timestamp b.timestamp with
    | lt => rfl
    | gt => rfl
    | eq => exact absurd ((intCmp_eq_iff _ _).mp h) hne
  · intro a b heq
    unfold LogLine.cmp
    rw [(intCmp_eq_iff _ _).mpr heq]
    rfl

/-- C3 witness: the tie-break clause at two concrete records with equal
timestamps. -/
theorem logline_order_spec_witness :
    LogLine.cmp ⟨5, ('b' :: []), [], []⟩ ⟨5, ('a' :: []), [], []⟩
      = (strCmp ('b' :: []) ('a' :: [])).then
        ((strCmp [] []).then (strCmp [] [])) :=
  logline_order_spec.2.2.2.2.1 _ _ (by decide)

/-- C4: the entry splitter is lossless — whenever `ms` is a valid
`match_indices` trace of the delimiter over `text` (in-order,
non-overlapping matches of actual substrings), concatenating all
segments returned by `split_keep` reproduces `text` exactly. -/
theorem split_keep_lossless (text : Str) (ms : List (Nat × Str))
    (h : MatchesFrom text 0 ms = true) :
    (split_keep text ms).flatten = text := by
  unfold split_keep
  rw [splitKeepGo_flatten text ms 0 h (Nat.zero_le _)]
  exact List.drop_zero text

/-- C4 witness: a concrete split ("ab12cd" with delimiter match "12" at
index 2). -/
theorem split_keep_lossless_witness :
    MatchesFrom ("ab12cd".data) 0 [(2, ("12".data))] = true
    ∧ (split_keep ("ab12cd".data) [(2, ("12".data))]).flatten
      = ("ab12cd".data) :=
  ⟨by decide, split_keep_lossless _ _ (by decide)⟩

/-- C5 counterexample: on the empty text with zero delimiter matches the
splitter returns no elements at all — not a single element equal to the
whole text (which would be `[[]]`). -/
theorem split_keep_empty_counterexample :
    split_keep ([] : Str) [] = [] ∧ split_keep ([] : Str) [] ≠ [([] : Str)] :=
  ⟨rfl, by decide⟩

/-- C5 (amended): for every NON-EMPTY text on which the delimiter has
zero matches the splitter returns the single element `text`; and a text
beginning with a delimiter match emits no leading empty segment — the
first emitted segment is the matched text itself. -/
theorem split_keep_edge_spec (text m : Str) (ms : List (Nat × Str))
    (h : text ≠ []) :
    split_keep text [] = [text]
    ∧ (split_keep text ((0, m) :: ms)).head? = some m := by
  constructor
  · show splitKeepGo text 0 [] = [text]
    rw [splitKeepGo]
    rw [if_pos (by cases text with
      | nil => exact absurd rfl h
      | cons c cs => simp)]
    rw [List.drop_zero]
  · show (splitKeepGo text 0 ((0, m) :: ms)).head? = some m
    rw [splitKeepGo]
    rw [if_neg (by simp)]
    rfl

/-- C5 witness: the amended claim at text "ab" and a match "a" at 0. -/
theorem split_keep_edge_spec_witness :
    (("ab".data) ≠ ([] : Str))
    ∧ (split_keep ("ab".data) [] = [("ab".data)]
      ∧ (split_keep ("ab".data) ((0, ("a".data)) :: [])).head?
        = some ("a".data)) :=
  ⟨by decide, split_keep_edge_spec ("ab".data) ("a".data) [] (by decide)⟩

/-- The timestamp format stored by the tool's scheme. -/
def fmtYmdHms : Str := "%Y-%m-%d %H:%M:%S".data

/-- C6: at a text not conforming to the stored format the parse fails,
and `timestamp_micros` — which calls `.unwrap()` on the parse result —
panics (modelled by `none`): the failure aborts the whole process
instead of surfacing as a recoverable per-record `ParseError`. -/
theorem timestamp_micros_panics_on_malformed :
    parse_from_str ("garbage".data) fmtYmdHms = none
    ∧ timestamp_micros fmtYmdHms ("garbage".data) = none := by
  exact ⟨by decide, by decide⟩

/-- C7: whenever the text parses against the stored format,
`timestamp_micros` returns `timestamp() * 1_000_000 +
subsecond_microseconds`; concretely, format `%Y-%m-%d %H:%M:%S` on
input `2024-01-01 00:00:01` gives `1704067201 * 1_000_000`. -/
theorem timestamp_micros_value :
    (∀ fmtp text dt, parse_from_str text fmtp = some dt →
      timestamp_micros fmtp text
        = some (dt.timestamp * 1000000 + (dt.subsec_micros : Int)))
    ∧ timestamp_micros fmtYmdHms ("2024-01-01 00:00:01".data)
        = some (1704067201 * 1000000) := by
  constructor
  · intro fmtp text dt h
    unfold timestamp_micros
    rw [h]
    rfl
  · decide

/-- C7 witness: the universally quantified clause applied at the
concrete format and input. -/
theorem timestamp_micros_value_witness :
    timestamp_micros fmtYmdHms ("2024-01-01 00:00:01".data)
      = some ((⟨2024, 1, 1, 0, 0, 1, 0⟩ : NaiveDT).timestamp * 1000000
          + (((⟨2024, 1, 1, 0, 0, 1, 0⟩ : NaiveDT).subsec_micros : Int))) :=
  timestamp_micros_value.1 fmtYmdHms ("2024-01-01 00:00:01".data)
    ⟨2024, 1, 1, 0, 0, 1, 0⟩ (by decide)

/-- The scheme exactly as the claim states it: sub-patterns
`d = \d{4}-\d{2}-\d{2}`, `h = \w+`, `s = \w+`, `m = .*`, whole-line
template `{d} {h} {s}: {m}`, delimiter equal to the date pattern. -/
def schemeClaim : LogScheme :=
  ⟨("\\d{4}-\\d{2}-\\d{2}".data), ("\\w+".data), ("\\w+".data), (".*".data),
    ("{d} {h} {s}: {m}".data), ("\\d{4}-\\d{2}-\\d{2}".data)⟩

/-- The same scheme with each sub-pattern wrapped in a capturing
group. -/
def schemeGrouped : LogScheme :=
  ⟨("(\\d{4}-\\d{2}-\\d{2})".data), ("(\\w+)".data), ("(\\w+)".data),
    ("(.*)".data), ("{d} {h} {s}: {m}".data), ("\\d{4}-\\d{2}-\\d{2}".data)⟩

/-- The candidate line of the claim. -/
def candidateLine : Str := "2024-01-01 hostA svcA: boot ok".data

/-- C8 counterexample: with the claim's sub-patterns the substituted
whole-line pattern compiles with zero capture groups, so `get_fields`
on the candidate yields a captures set holding only group 0 — the whole
line — and no four field texts (no group 1 to 4 exists). -/
theorem get_fields_ungrouped_counterexample :
    ((RegExtractor.new schemeClaim fmtYmdHms).map fun e => e.ngroups)
      = some 0
    ∧ ((RegExtractor.new schemeClaim fmtYmdHms).bind fun e =>
        e.get_fields candidateLine)
      = some [some candidateLine] := by
  exact ⟨by decide, by decide⟩

/-- C8 (amended): when each sub-pattern is wrapped in a capturing group
(`d = (\d{4}-\d{2}-\d{2})` and so on) and substituted into the template,
`get_fields` on the candidate yields the four ordered field texts
datetime `2024-01-01`, host `hostA`, service `svcA`, message
`boot ok` (preceded by group 0, the whole match). -/
theorem get_fields_grouped_spec :
    ((RegExtractor.new schemeGrouped fmtYmdHms).bind fun e =>
        e.get_fields candidateLine)
      = some [some candidateLine, some ("2024-01-01".data),
          some ("hostA".data), some ("svcA".data), some ("boot ok".data)] := by
  decide

/-- C9: `merge` and `filter_logs` return a fresh stream (cursor 0) and
never mutate the receiver — its backing record sequence and its cursor
position are unchanged. -/
theorem merge_filter_no_mutation (a b : Logs) (exclude inc : List Str) :
    ((a.merge b).1.lines = a.lines ∧ (a.merge b).1.line_idx = a.line_idx)
    ∧ (a.merge b).2.line_idx = 0
    ∧ ((a.filterSt exclude inc).1.lines = a.lines
      ∧ (a.filterSt exclude inc).1.line_idx = a.line_idx)
    ∧ (a.filterSt exclude inc).2.line_idx = 0 :=
  ⟨⟨rfl, rfl⟩, rfl, ⟨rfl, rfl⟩, rfl⟩

